import Mathlib

/-!
# Verification of the funding-extractor CSV autofiller

Shallow embedding of the three source files of the repository:

* `src/unnamed/part_000` — the consumption variant: CSV records are indexed
  by the composite key `trim(CHICK) ++ "|" ++ trim(Claim Until)`, destination
  rows are walked in order, and a matched record is spliced out of its bucket.
* `src/browser-autofiller.js` — a near-identical variant whose
  `processNextRow` never removes records from buckets.
* `src/unnamed/part_001` — two interactive variants keyed by CHICK alone,
  with a weekly-total disambiguation dialog.

DOM side effects (badges, colours, scrolling, change events) are modelled
only insofar as they write field values: a destination row is a record of
optional field values (`none` = the row has no such input element), and the
fill operations return the updated row.  Timestamps are integers
(milliseconds since the epoch, as in JS `Date` subtraction, compared with
exact rational division where the scripts divide) and calendar dates are
year/month/day triples converted to day numbers.
-/

namespace FundingExtractor

/-! ## JS string primitives

The scripts use `String.prototype.trim`, `split(c)` with one-character
separators, `includes`, and numeric parsing.  They are modelled here over
`List Char` so that every definition evaluates by kernel reduction. -/

/-- The whitespace characters `String.prototype.trim` strips (the ASCII
ones, which are the only ones the data contains). -/
def isJsWhitespace (c : Char) : Bool :=
  c == ' ' || c == '\t' || c == '\n' || c == '\r' || c == '\x0b' || c == '\x0c'

/-- JS `s.trim()`: whitespace removed from both ends. -/
def jsTrim (s : String) : String :=
  String.mk (((s.data.dropWhile isJsWhitespace).reverse.dropWhile isJsWhitespace).reverse)

/-- Accumulator loop for `splitChar`: `acc` holds the current field
reversed. -/
def splitCharAux (sep : Char) : List Char → List Char → List String
  | [], acc => [String.mk acc.reverse]
  | c :: rest, acc =>
    if c == sep then String.mk acc.reverse :: splitCharAux sep rest []
    else splitCharAux sep rest (c :: acc)

/-- JS `s.split(sep)` for a one-character separator: `''` splits to `['']`,
and a trailing separator yields a trailing empty field. -/
def splitChar (sep : Char) (s : String) : List String :=
  splitCharAux sep s.data []

/-- Whether `pat` starts the list. -/
def startsWithList : List Char → List Char → Bool
  | [], _ => true
  | _ :: _, [] => false
  | p :: ps, c :: cs => p == c && startsWithList ps cs

/-- JS `s.includes(pat)`: `pat` occurs as a contiguous substring. -/
def hasSubstrList (pat : List Char) : List Char → Bool
  | [] => pat.isEmpty
  | c :: cs => startsWithList pat (c :: cs) || hasSubstrList pat cs

/-- Numeric parse of a digit string; `none` on empty or non-digit input
(which in `parseDate` produces JS's `Invalid Date`). -/
def parseNatList (cs : List Char) : Option Nat :=
  if cs.isEmpty || cs.any (fun c => !c.isDigit) then none
  else some (cs.foldl (fun n c => n * 10 + (c.toNat - '0'.toNat)) 0)

/-- A parsed CSV source record for `part_000` / `browser-autofiller.js`,
with the fields those scripts read: `CHICK`, `Claim Until`, `Funding Start`,
`Weekly Total`, `Hour rate`, `Note`. -/
structure SRecord where
  chick : String
  claimUntil : String
  fundingStart : String
  weeklyTotal : String
  hourRate : String
  note : String
deriving DecidableEq, Repr

/-- A destination table row as `part_000` / `browser-autofiller.js` see it:
the value of each `<input>` the script queries, `none` when the input element
is absent from the row. -/
structure DRow where
  chick : Option String
  dateTo : Option String
  dateFrom : Option String
  weeklyTotal : Option String
  hourRate : Option String
deriving DecidableEq, Repr

/-- The source index `state.childrenByChickAndEnd`: a total map from composite
key to bucket, empty list standing for an absent key (the scripts read
`state.childrenByChickAndEnd[key] || []`). -/
abbrev Index := String → List SRecord

/-- Point update of the index at one key. -/
def updateIndex (idx : Index) (k : String) (b : List SRecord) : Index :=
  fun x => if x = k then b else idx x

/-- Composite key of a source record, `row['CHICK'].trim() + "|" +
row['Claim Until'].trim()` (`part_000` lines 30–36, `browser-autofiller.js`
lines 16–22). -/
def recKey (r : SRecord) : String :=
  jsTrim r.chick ++ "|" ++ jsTrim r.claimUntil

/-- Generalisation of `buildIndex` exposing the accumulator of the fold. -/
def buildIndexFrom (idx : Index) (rs : List SRecord) : Index :=
  rs.foldl (fun idx r => updateIndex idx (recKey r) (idx (recKey r) ++ [r])) idx

/-- The index-building loop of `processCSV` (`part_000` lines 30–36,
`browser-autofiller.js` lines 16–22): each record is appended to the bucket
of its composite key, the bucket being created empty when absent. -/
def buildIndex (rs : List SRecord) : Index :=
  buildIndexFrom (fun _ => []) rs

/-- JS falsiness of `input?.value.trim()`: the guard `!chick || !claimUntil`
fires when the input element is absent or its trimmed value is empty. -/
def blankField : Option String → Bool
  | none => true
  | some s => jsTrim s == ""

/-- The composite key a destination row presents, or `none` when the row is
skipped by the blank-field guard (`part_000` lines 72–85,
`browser-autofiller.js` lines 58–66). -/
def rowKeyOf (row : DRow) : Option String :=
  if blankField row.chick || blankField row.dateTo then none
  else some (jsTrim (row.chick.getD "") ++ "|" ++ jsTrim (row.dateTo.getD ""))

/-- The tie-break comparison `c['Funding Start']?.trim() === startValue`
where `startValue = row.querySelector('input[name*="[date_from]"]')?.value.trim()`:
strict equality against a possibly-absent row field. -/
def startMatches (row : DRow) (c : SRecord) : Bool :=
  row.dateFrom.map jsTrim == some (jsTrim c.fundingStart)

/-- Model of `part_000`'s `hourRate?.replace(/[^\d.]/g, '')` (line 117) and
`part_001`'s `hourRate.replace(/[^0-9.]/g, '')` (lines 162–169): every
character other than a digit or a full stop is removed. -/
def stripHourRate (s : String) : String :=
  String.mk (s.data.filter (fun c => c.isDigit || c == '.'))

/-- The `fillFields` of `part_000` (lines 106–118) restricted to its field
writes: `date_from ← Funding Start`, `weekly_total ← Weekly Total`,
`hour_rate ← stripped Hour rate`.  `setInput` writes only when the input
element exists, so `none` fields stay `none`.  The styling, badge and
scrolling side effects touch no field value; the style classification is
modelled separately by `classifyRow`. -/
def fillFields (row : DRow) (data : SRecord) : DRow :=
  { row with
    dateFrom := row.dateFrom.map fun _ => data.fundingStart
    weeklyTotal := row.weeklyTotal.map fun _ => data.weeklyTotal
    hourRate := row.hourRate.map fun _ => stripHourRate data.hourRate }

/-- One iteration of `part_000`'s `processNextRow` (lines 68–104) on the
shared index: returns the updated index and the record passed to
`fillFields` (`none` when the row is skipped or has no candidates).
A singleton bucket is consumed by `candidates.splice(0, 1)`; a larger bucket
by `candidates.splice(candidates.indexOf(toFill), 1)`, i.e. removal of the
first occurrence of the chosen record. -/
def processRow (idx : Index) (row : DRow) : Index × Option SRecord :=
  match rowKeyOf row with
  | none => (idx, none)
  | some k =>
    match idx k with
    | [] => (idx, none)
    | [c] => (updateIndex idx k [], some c)
    | c :: cs =>
      let exact := (c :: cs).find? (fun r => startMatches row r)
      let toFill := exact.getD c
      (updateIndex idx k ((c :: cs).erase toFill), some toFill)

/-- The traversal of `part_000`'s `processNextRow`: rows processed in order,
`state.totalMatches` incremented on every fill, with the trace of per-row
outcomes.  The `previousChick` border and the `setTimeout` pacing are
visual-only and affect no field or state read by the loop. -/
def processNextRow (idx : Index) (m : Nat) :
    List DRow → Index × Nat × List (DRow × Option SRecord)
  | [] => (idx, m, [])
  | row :: rest =>
    let step := processRow idx row
    let m1 := match step.2 with
      | some _ => m + 1
      | none => m
    let next := processNextRow step.1 m1 rest
    (next.1, next.2.1, (row, step.2) :: next.2.2)

/-- One iteration of `browser-autofiller.js`'s `processNextRow`
(lines 54–88): identical candidate selection, but no `splice` — the index is
never mutated. -/
def processRowB (idx : Index) (row : DRow) : Option SRecord :=
  match rowKeyOf row with
  | none => none
  | some k =>
    match idx k with
    | [] => none
    | [c] => some c
    | c :: cs => some (((c :: cs).find? (fun r => startMatches row r)).getD c)

/-- The traversal of `browser-autofiller.js` (lines 54–88): match counter
plus trace, the index being read-only. -/
def processNextRowB (idx : Index) (m : Nat) :
    List DRow → Nat × List (DRow × Option SRecord)
  | [] => (m, [])
  | row :: rest =>
    let out := processRowB idx row
    let m1 := match out with
      | some _ => m + 1
      | none => m
    let next := processNextRowB idx m1 rest
    (next.1, (row, out) :: next.2)

/-- The row state after the traversal: a filled row got `fillFields`, a
skipped or unmatched row is untouched. -/
def writeBack (p : DRow × Option SRecord) : DRow :=
  match p.2 with
  | some c => fillFields p.1 c
  | none => p.1

/-- The records consumed by the traversal at destination rows presenting
key `k`, in traversal order. -/
def consumedAt (k : String) (trace : List (DRow × Option SRecord)) : List SRecord :=
  (trace.filter (fun p => rowKeyOf p.1 == some k)).filterMap (·.2)

/-! ## The delimited-text reader (`parseCSV` of `part_000` and `part_001`) -/

/-- JS `lines[0].split(',').map(h => h.trim())`: the header names. -/
def headersOf (h : String) : List String :=
  (splitChar ',' h).map jsTrim

/-- One data line turned into a record object: values split on commas and
trimmed, assigned positionally to the headers, a missing (or empty) value
becoming `''` via `values[i] || ''`.  A JS object keyed by header is
modelled as the association list in header order. -/
def rowOfLine (headers : List String) (line : String) : List (String × String) :=
  let values := (splitChar ',' line).map jsTrim
  headers.enum.map (fun p => (p.2, values.getD p.1 ""))

/-- The `part_000` `parseCSV` body after splitting (lines 44–55): every line
after the header is mapped to a record, blank or not. -/
def parseLines0 : List String → List (List (String × String))
  | [] => []
  | h :: rest => rest.map (rowOfLine (headersOf h))

/-- The `part_000` `parseCSV` (lines 44–55): `csv.trim().split('\n')`, then
one record per remaining line after the header. -/
def parseCSV0 (csv : String) : List (List (String × String)) :=
  parseLines0 (splitChar '\n' (jsTrim csv))

/-- The `part_001` `parseCSV` body after splitting (lines 38–52): lines after
the header are filtered to the non-blank ones, then mapped to records. -/
def parseLines1 : List String → List (List (String × String))
  | [] => []
  | h :: rest =>
    (rest.filter (fun line => jsTrim line != "")).map (rowOfLine (headersOf h))

/-- The `part_001` `parseCSV` (lines 38–52): `csv.split('\n')` with no global
trim, then non-blank lines after the header become records. -/
def parseCSV1 (csv : String) : List (List (String × String)) :=
  parseLines1 (splitChar '\n' csv)

/-! ## Calendar arithmetic (`parseDate`, `getFirstMondayBeforeOrOn`,
`getHolidayName` of `part_000`) -/

/-- A calendar date at day precision (month `1`–`12`, day `1`–`31`), the
precision at which `part_000` compares `Date` values. -/
structure CalDate where
  year : Int
  month : Nat
  day : Nat
deriving DecidableEq, Repr

/-- Days since 1970-01-01 of a civil date (standard civil-from-days
conversion), the day-precision counterpart of a JS `Date`'s timestamp. -/
def toDayNumber (dt : CalDate) : Int :=
  let y : Int := if dt.month ≤ 2 then dt.year - 1 else dt.year
  let era : Int := (if 0 ≤ y then y else y - 399) / 400
  let yoe : Int := y - era * 400
  let mp : Int := ((dt.month : Int) + 9) % 12
  let doy : Int := (153 * mp + 2) / 5 + (dt.day : Int) - 1
  let doe : Int := yoe * 365 + yoe / 4 - yoe / 100 + doy
  era * 146097 + doe - 719468

/-- JS `Date.prototype.getDay`: `0` = Sunday … `6` = Saturday
(1970-01-01, day number `0`, was a Thursday). -/
def dayOfWeekJS (dn : Int) : Int :=
  (dn + 4) % 7

/-- The backward walk of `getFirstMondayBeforeOrOn` (lines 177–183) with
explicit fuel; seven steps always reach a Monday. -/
def mondayWalk : Nat → Int → Int
  | 0, dn => dn
  | fuel + 1, dn => if dayOfWeekJS dn == 1 then dn else mondayWalk fuel (dn - 1)

/-- The `getFirstMondayBeforeOrOn` loop (lines 177–183): step back one day at a time
until the day of week is Monday. -/
def getFirstMondayBeforeOrOn (dn : Int) : Int :=
  mondayWalk 7 dn

/-- The `parseDate` function (lines 185–188) on a `DD/MM/YYYY` string.  A malformed
string yields JS's `Invalid Date`, every comparison against which is false;
this is modelled as `none`. -/
def parseDMY (s : String) : Option CalDate :=
  match splitChar '/' s with
  | [dd, mm, yyyy] =>
    match parseNatList dd.data, parseNatList mm.data, parseNatList yyyy.data with
    | some d, some m, some y => some ⟨(y : Int), m, d⟩
    | _, _, _ => none
  | _ => none

/-- The static `schoolHolidays` table of `part_000` (lines 7–20), in
insertion order. -/
def schoolHolidays : List (String × List (String × String × String)) :=
  [("2024-2025",
     [("October Holidays", "28/10/2024", "01/11/2024"),
      ("Christmas Holidays", "23/12/2024", "03/01/2025"),
      ("February Holidays", "17/02/2025", "21/02/2025"),
      ("Easter Holidays", "14/04/2025", "25/04/2025")]),
   ("2025-2026",
     [("October Holidays", "27/10/2025", "31/10/2025"),
      ("Christmas Holidays", "22/12/2025", "02/01/2026"),
      ("February Holidays", "16/02/2026", "20/02/2026"),
      ("Easter Holidays", "30/03/2026", "10/04/2026")])]

/-- JS `date >= start && date <= end` for one named range of the table, both
bounds inclusive, day precision. -/
def entryContains (dn : Int) (e : String × String × String) : Bool :=
  match parseDMY e.2.1, parseDMY e.2.2 with
  | some s, some en => decide (toDayNumber s ≤ dn ∧ dn ≤ toDayNumber en)
  | _, _ => false

/-- The inner loop of `getHolidayName` over one school year's entries:
first containing range wins. -/
def scanEntries (dn : Int) : List (String × String × String) → Option String
  | [] => none
  | e :: rest => if entryContains dn e then some e.1 else scanEntries dn rest

/-- The outer loop of `getHolidayName` over the school years, in insertion
order. -/
def scanYears (dn : Int) : List (String × List (String × String × String)) → Option String
  | [] => none
  | y :: rest =>
    match scanEntries dn y.2 with
    | some n => some n
    | none => scanYears dn rest

/-- The `getHolidayName` lookup (lines 162–175): the derived summer range
`[Monday on or before 1 July, Monday on or before 1 September)` of the query
date's own year is checked first; otherwise the static table is scanned in
insertion order for the first inclusively containing range. -/
def getHolidayName (dt : CalDate) : Option String :=
  let dn := toDayNumber dt
  let summerStart := getFirstMondayBeforeOrOn (toDayNumber ⟨dt.year, 7, 1⟩)
  let summerEnd := getFirstMondayBeforeOrOn (toDayNumber ⟨dt.year, 9, 1⟩)
  if summerStart ≤ dn ∧ dn < summerEnd then some "Summer Holidays"
  else scanYears dn schoolHolidays

/-! ## Row classification of `part_000`'s `fillFields` (lines 121–134) -/

/-- JS `note.includes('Base')`: `'Base'` occurs as a substring exactly when
splitting on it yields more than one part. -/
def hasBase (note : String) : Bool :=
  hasSubstrList "Base".data note.data

/-- JS `(new Date() - endDate) / (1000*60*60*24) > 90` with an exact rational
division standing for the JS float division; `none` stands for an
unparseable period-end (JS `Invalid Date`, whose comparisons are all
false). -/
def isOldPeriod (nowMs : Int) (endMs : Option Int) : Bool :=
  match endMs with
  | some e => decide ((90 : ℚ) < ((nowMs : ℚ) - (e : ℚ)) / (1000 * 60 * 60 * 24))
  | none => false

/-- The three visual classes of `fillFields` (lines 127–134). -/
inductive RowStyle
  | basePeriod
  | stale
  | fresh
deriving DecidableEq, Repr

/-- The mutually exclusive classification of `fillFields` (lines 121–134):
base period first, then the 90-day staleness test, else fresh. -/
def classifyRow (note : String) (nowMs : Int) (endMs : Option Int) : RowStyle :=
  if hasBase note then .basePeriod
  else if isOldPeriod nowMs endMs then .stale
  else .fresh

/-! ## The interactive variants of `part_001` -/

/-- A parsed CSV record as the `part_001` variants read it: `CHICK`,
`Start date`, `Weekly Total`, `Hour rate`, `Child`. -/
structure SRecord1 where
  chick : String
  startDate : String
  weeklyTotal : String
  hourRate : String
  child : String
deriving DecidableEq, Repr

/-- A destination row of `part_001`: the text of the seventh cell (`none`
when the cell is absent) and the three writable inputs. -/
structure P1Row where
  chickCell : Option String
  dateFrom : Option String
  weeklyTotal : Option String
  hourRate : Option String
deriving DecidableEq, Repr

/-- The `part_001` `childrenByChick` lookup object: `data.forEach(row =>
childrenByChick[row['CHICK']] = row)` — one record per CHICK, a later
record overwriting an earlier one with the same (untrimmed) CHICK. -/
def buildByChick (rs : List SRecord1) : String → Option SRecord1 :=
  rs.foldl (fun m r => fun k => if k = r.chick then some r else m k) (fun _ => none)

/-- The `fillRowData` of `part_001` (both variants, lines 136–179 and 680–722),
restricted to its field writes: `date_from ← Start date`,
`weekly_total ←` the passed value, `hour_rate ←` the stripped `Hour rate`;
each write only happens when the input exists. -/
def fillRowData (row : P1Row) (childData : SRecord1) (weeklyTotalValue : String) : P1Row :=
  { row with
    dateFrom := row.dateFrom.map fun _ => childData.startDate
    weeklyTotal := row.weeklyTotal.map fun _ => weeklyTotalValue
    hourRate := row.hourRate.map fun _ => stripHourRate childData.hourRate }

/-- The operator's answer to one disambiguation dialog: the `Select` button
of option `j`, or `Skip This Row`. -/
inductive Choice
  | select (j : Nat)
  | skip
deriving DecidableEq, Repr

/-- The per-row outcome of `processRowsSequentially`. -/
inductive Outcome1
  | noCell
  | noMatch
  | filled (childData : SRecord1)
  | promptSelected (offered : List String) (j : Nat) (childData : SRecord1)
  | promptSkipped (offered : List String)
deriving DecidableEq, Repr

/-- Whether an outcome increments the match counter. -/
def isMatch1 : Outcome1 → Bool
  | .filled _ => true
  | .promptSelected _ _ _ => true
  | _ => false

/-- One row of `part_001`'s first-variant `processRowsSequentially`
(lines 79–133): read the seventh cell, look the trimmed CHICK up, and
either fill directly or — when the weekly total is non-empty and contains
`'/'` — open the dialog offering `weeklyTotal.split('/')` and obey the
operator's choice. -/
def stepRow1 (byChick : String → Option SRecord1) (ch : Choice) (row : P1Row) : Outcome1 :=
  match row.chickCell with
  | none => .noCell
  | some cell =>
    match byChick (jsTrim cell) with
    | none => .noMatch
    | some childData =>
      let wt := childData.weeklyTotal
      if wt != "" && wt.data.contains '/' then
        match ch with
        | .select j => .promptSelected (splitChar '/' wt) j childData
        | .skip => .promptSkipped (splitChar '/' wt)
      else .filled childData

/-- The first-variant traversal (`part_001` lines 79–133): the lookup
object and `state.totalMatches` persist across rows; skipping a dialog
(lines 347–358) leaves both untouched and resumes at the next row. -/
def runRows1 (byChick : String → Option SRecord1) (choose : Nat → Choice) :
    Nat → Nat → List P1Row → Nat × List (P1Row × Outcome1)
  | _, m, [] => (m, [])
  | i, m, row :: rest =>
    let o := stepRow1 byChick (choose i) row
    let m1 := if isMatch1 o then m + 1 else m
    let next := runRows1 byChick choose (i + 1) m1 rest
    (next.1, (row, o) :: next.2)

/-- The second-variant traversal (`part_001` lines 633–677): the lookup
object and the match count are plain parameters, and the skip handler
(lines 858–864) resumes with `processRowsSequentially(rows, rowIndex + 1,
{}, 0)` — an empty lookup object and a zero count. -/
def runRows2 (choose : Nat → Choice) :
    (String → Option SRecord1) → Nat → Nat → List P1Row → Nat × List (P1Row × Outcome1)
  | _, _, m, [] => (m, [])
  | byChick, i, m, row :: rest =>
    let o := stepRow1 byChick (choose i) row
    match o with
    | .promptSkipped _ =>
      let next := runRows2 choose (fun _ => none) (i + 1) 0 rest
      (next.1, (row, o) :: next.2)
    | _ =>
      let m1 := if isMatch1 o then m + 1 else m
      let next := runRows2 choose byChick (i + 1) m1 rest
      (next.1, (row, o) :: next.2)

/-- The row state of `part_001` after the traversal: `fillRowData` with the
single value or the selected option (`values[j]` of the dialog's buttons),
unchanged otherwise. -/
def writeBack1 (p : P1Row × Outcome1) : P1Row :=
  match p.2 with
  | .filled childData => fillRowData p.1 childData childData.weeklyTotal
  | .promptSelected offered j childData => fillRowData p.1 childData (offered.getD j "")
  | _ => p.1

/-! ## Concrete test vectors -/

/-- Source record `A|B`, period start 01/09. -/
def recA : SRecord := ⟨"A", "B", "01/09/2025", "10", "5.00", ""⟩

/-- Second source record with the same key, period start 01/10. -/
def recB : SRecord := ⟨"A", "B", "01/10/2025", "20", "6", ""⟩

/-- Destination row presenting key `A|B` with a blank period start. -/
def rowA : DRow := ⟨some "A", some "B", some "", some "", some ""⟩

/-- Destination row presenting key `A|B` whose period start matches
`recB`. -/
def rowB : DRow := ⟨some "A", some "B", some "01/10/2025", some "", some ""⟩

/-- Destination row with a blank CHICK input. -/
def rowBlank : DRow := ⟨some " ", some "B", some "", some "", some ""⟩

/-- The `part_001` records: `pr1` single-valued, `pr2` with the ambiguous
weekly total `20/25`, `pr3` single-valued. -/
def pr1 : SRecord1 := ⟨"K1", "01/09/2025", "10", "€5.00", "Ann"⟩

/-- The ambiguous `part_001` record. -/
def pr2 : SRecord1 := ⟨"K2", "01/10/2025", "20/25", "6", "Ben"⟩

/-- Third `part_001` record. -/
def pr3 : SRecord1 := ⟨"K3", "01/11/2025", "30", "7", "Cal"⟩

/-- The `part_001` destination rows bearing the three CHICK codes. -/
def prow1 : P1Row := ⟨some "K1", some "", some "", some ""⟩

/-- Row bearing the ambiguous CHICK code. -/
def prow2 : P1Row := ⟨some "K2", some "", some "old", some ""⟩

/-- Row bearing the third CHICK code. -/
def prow3 : P1Row := ⟨some "K3", some "", some "", some ""⟩

/-- Choice function skipping the dialog at row 1. -/
def chSkip : Nat → Choice := fun i => if i = 1 then .skip else .select 0

/-- Choice function selecting option 1 (`25`) at row 1. -/
def chSel : Nat → Choice := fun _ => .select 1

/-! ## Helper lemmas -/

theorem buildIndexFrom_apply (rs : List SRecord) (idx : Index) (k : String) :
    buildIndexFrom idx rs k = idx k ++ rs.filter (fun r => recKey r == k) := by
  induction rs generalizing idx with
  | nil => simp [buildIndexFrom]
  | cons r rs ih =>
    simp only [buildIndexFrom, List.foldl_cons, List.filter_cons] at *
    rw [ih]
    by_cases h : recKey r = k
    · subst h; simp [updateIndex]
    · simp [updateIndex, h, beq_iff_eq, Ne.symm h]

theorem count_erase_add_of_mem {α : Type} [DecidableEq α] {a r : α} {l : List α}
    (h : a ∈ l) :
    (l.erase a).count r + (if r = a then 1 else 0) = l.count r := by
  by_cases hr : r = a
  · subst hr
    rw [List.count_erase_self, if_pos rfl,
      Nat.sub_add_cancel (List.count_pos_iff.mpr h)]
  · rw [List.count_erase_of_ne hr, if_neg hr, Nat.add_zero]

theorem erase_count_singleton {α : Type} [DecidableEq α] {a : α} {l : List α}
    (h : a ∈ l) (r : α) :
    (l.erase a).count r + ([a].count r) = l.count r := by
  have key := count_erase_add_of_mem (r := r) h
  have h1 : ([a].count r) = if r = a then 1 else 0 := by
    by_cases hr : r = a
    · simp [hr]
    · simp [List.count_cons, hr]
  rw [h1]
  exact key

theorem length_erase_add_of_mem {α : Type} [DecidableEq α] {a : α} {l : List α}
    (h : a ∈ l) :
    (l.erase a).length + 1 = l.length := by
  rw [List.length_erase_of_mem h]
  have : l ≠ [] := by rintro rfl; simp at h
  have : 0 < l.length := List.length_pos.mpr this
  omega

/-- The record a multi-candidate bucket gives up is a member of the bucket. -/
theorem processRow_toFill_mem (row : DRow) (c : SRecord) (cs : List SRecord) :
    (((c :: cs).find? (fun r => startMatches row r)).getD c) ∈ c :: cs := by
  cases hf : (c :: cs).find? (fun r => startMatches row r) with
  | none => simp
  | some e => simpa using List.mem_of_find?_eq_some hf

theorem consumedAt_cons (k : String) (p : DRow × Option SRecord)
    (t : List (DRow × Option SRecord)) :
    consumedAt k (p :: t)
      = (if rowKeyOf p.1 == some k then p.2.toList else []) ++ consumedAt k t := by
  obtain ⟨row, out⟩ := p
  by_cases h : rowKeyOf row == some k <;> cases out <;>
    simp [consumedAt, List.filter_cons, h]

/-- Per-step conservation of a bucket, as record multiplicities: what the
step leaves in bucket `k` plus what it consumed at key `k` is what was
there. -/
theorem processRow_count (idx : Index) (row : DRow) (k : String) (r : SRecord) :
    ((processRow idx row).1 k).count r
      + ((if rowKeyOf row == some k then (processRow idx row).2.toList else []).count r)
      = (idx k).count r := by
  cases hk : rowKeyOf row with
  | none => simp [processRow, hk]
  | some k' =>
    by_cases hkk : k' = k
    · subst hkk
      rcases hb : idx k' with _ | ⟨c, _ | ⟨c2, cs⟩⟩
      · simp [processRow, hk, hb]
      · simp [processRow, hk, hb, updateIndex]
      · have hm := processRow_toFill_mem row c (c2 :: cs)
        have key := erase_count_singleton hm r
        simp only [processRow, hk, hb, updateIndex, if_pos rfl, beq_self_eq_true,
          if_true, Option.toList_some]
        exact key
    · have hne : (rowKeyOf row == some k) = false := by
        simp [hk, hkk]
      rcases hb : idx k' with _ | ⟨c, _ | ⟨c2, cs⟩⟩ <;>
        simp [processRow, hk, hb, updateIndex, hne, hkk, Ne.symm hkk]

/-- Per-step conservation of a bucket's size. -/
theorem processRow_length (idx : Index) (row : DRow) (k : String) :
    ((processRow idx row).1 k).length
      + ((if rowKeyOf row == some k then (processRow idx row).2.toList else []).length)
      = (idx k).length := by
  cases hk : rowKeyOf row with
  | none => simp [processRow, hk]
  | some k' =>
    by_cases hkk : k' = k
    · subst hkk
      rcases hb : idx k' with _ | ⟨c, _ | ⟨c2, cs⟩⟩
      · simp [processRow, hk, hb]
      · simp [processRow, hk, hb, updateIndex]
      · have hm := processRow_toFill_mem row c (c2 :: cs)
        have key := length_erase_add_of_mem hm
        simp only [List.length_cons] at key
        simp only [processRow, hk, hb, updateIndex, if_pos rfl, beq_self_eq_true,
          if_true, Option.toList_some, List.length_cons, List.length_nil]
        omega
    · have hne : (rowKeyOf row == some k) = false := by
        simp [hk, hkk]
      rcases hb : idx k' with _ | ⟨c, _ | ⟨c2, cs⟩⟩ <;>
        simp [processRow, hk, hb, updateIndex, hne, hkk, Ne.symm hkk]

/-- Traversal-level conservation, multiplicity form: for every key and every
record, what is left in the bucket plus what was consumed there is what the
bucket held at the start. -/
theorem processNextRow_count (k : String) (r : SRecord) :
    ∀ (rows : List DRow) (idx : Index) (m : Nat),
      ((processNextRow idx m rows).1 k).count r
        + (consumedAt k (processNextRow idx m rows).2.2).count r
        = (idx k).count r := by
  intro rows
  induction rows with
  | nil => intro idx m; simp [processNextRow, consumedAt]
  | cons row rest ih =>
    intro idx m
    simp only [processNextRow, consumedAt_cons, List.count_append]
    have h1 := ih (processRow idx row).1
      (match (processRow idx row).2 with | some _ => m + 1 | none => m)
    have h2 := processRow_count idx row k r
    omega

/-- Traversal-level conservation, size form. -/
theorem processNextRow_length (k : String) :
    ∀ (rows : List DRow) (idx : Index) (m : Nat),
      ((processNextRow idx m rows).1 k).length
        + (consumedAt k (processNextRow idx m rows).2.2).length
        = (idx k).length := by
  intro rows
  induction rows with
  | nil => intro idx m; simp [processNextRow, consumedAt]
  | cons row rest ih =>
    intro idx m
    simp only [processNextRow, consumedAt_cons, List.length_append]
    have h1 := ih (processRow idx row).1
      (match (processRow idx row).2 with | some _ => m + 1 | none => m)
    have h2 := processRow_length idx row k
    omega

/-- The match counter grows by at most one per destination row. -/
theorem processNextRow_matches_le :
    ∀ (rows : List DRow) (idx : Index) (m : Nat),
      (processNextRow idx m rows).2.1 ≤ m + rows.length := by
  intro rows
  induction rows with
  | nil => intro idx m; simp [processNextRow]
  | cons row rest ih =>
    intro idx m
    simp only [processNextRow, List.length_cons]
    cases hout : (processRow idx row).2 with
    | none =>
      exact le_trans (ih (processRow idx row).1 m) (by omega)
    | some c =>
      exact le_trans (ih (processRow idx row).1 (m + 1)) (by omega)

/-- Every destination row gets a trace entry: the traversal never stops
early. -/
theorem processNextRow_trace_length :
    ∀ (rows : List DRow) (idx : Index) (m : Nat),
      (processNextRow idx m rows).2.2.length = rows.length := by
  intro rows
  induction rows with
  | nil => intro idx m; simp [processNextRow]
  | cons row rest ih =>
    intro idx m
    simp only [processNextRow, List.length_cons]
    rw [ih]

/-- Once a bucket is empty it stays empty, and every later destination row
presenting its key is left unfilled. -/
theorem processNextRow_exhausted (k : String) :
    ∀ (rows : List DRow) (idx : Index) (m : Nat), idx k = [] →
      (processNextRow idx m rows).1 k = []
      ∧ ∀ p ∈ (processNextRow idx m rows).2.2, rowKeyOf p.1 = some k → p.2 = none := by
  intro rows
  induction rows with
  | nil => intro idx m h; simp [processNextRow, h]
  | cons row rest ih =>
    intro idx m h
    have hstep : (processRow idx row).1 k = []
        ∧ (rowKeyOf row = some k → (processRow idx row).2 = none) := by
      cases hk : rowKeyOf row with
      | none => simp [processRow, hk, h]
      | some k' =>
        by_cases hkk : k' = k
        · subst hkk
          simp [processRow, hk, h]
        · rcases hb : idx k' with _ | ⟨c, _ | ⟨c2, cs⟩⟩ <;>
            simp [processRow, hk, hb, updateIndex, hkk, Ne.symm hkk, h]
    have hrec := ih (processRow idx row).1
      (match (processRow idx row).2 with | some _ => m + 1 | none => m) hstep.1
    refine ⟨hrec.1, ?_⟩
    intro p hp hkey
    simp only [processNextRow, List.mem_cons] at hp
    rcases hp with rfl | hp
    · exact hstep.2 hkey
    · exact hrec.2 p hp hkey

/-- Splitting the destination rows splits the traversal: state threads
through, traces concatenate. -/
theorem processNextRow_append (idx : Index) (m : Nat) (l1 l2 : List DRow) :
    processNextRow idx m (l1 ++ l2)
      = ((processNextRow (processNextRow idx m l1).1 (processNextRow idx m l1).2.1 l2).1,
         (processNextRow (processNextRow idx m l1).1 (processNextRow idx m l1).2.1 l2).2.1,
         (processNextRow idx m l1).2.2
           ++ (processNextRow (processNextRow idx m l1).1 (processNextRow idx m l1).2.1 l2).2.2) := by
  induction l1 generalizing idx m with
  | nil => simp [processNextRow]
  | cons row rest ih =>
    simp only [List.cons_append, processNextRow, List.append_eq]
    rw [ih]

/-- The browser variant's match counter also grows by at most one per row. -/
theorem processNextRowB_matches_le :
    ∀ (rows : List DRow) (idx : Index) (m : Nat),
      (processNextRowB idx m rows).1 ≤ m + rows.length := by
  intro rows
  induction rows with
  | nil => intro idx m; simp [processNextRowB]
  | cons row rest ih =>
    intro idx m
    simp only [processNextRowB, List.length_cons]
    cases hout : processRowB idx row with
    | none =>
      exact le_trans (ih idx m) (by omega)
    | some c =>
      exact le_trans (ih idx (m + 1)) (by omega)

/-! ## Claim C7 — the Source Index Builder -/

/-- Claim C7: for every record sequence, the index builder keys each record by
`trim(identifier) ++ "|" ++ trim(period-end)` and appends it to that key's
bucket: every bucket is exactly the subsequence of input records bearing its
key (so order is the stable input order), and no record is rejected — each
input record is in its own key's bucket. -/
theorem c7_index_buckets (rs : List SRecord) (k : String) :
    buildIndex rs k = rs.filter (fun r => recKey r == k)
    ∧ ∀ r ∈ rs, r ∈ buildIndex rs (recKey r) := by
  constructor
  · simpa using buildIndexFrom_apply rs (fun _ => []) k
  · intro r hr
    have happ := buildIndexFrom_apply rs (fun _ => []) (recKey r)
    rw [show buildIndex rs (recKey r)
        = rs.filter (fun x => recKey x == recKey r) from by simpa using happ]
    simp [List.mem_filter, hr]

/-- Witness for `c7_index_buckets` at a concrete record list. -/
theorem c7_index_buckets_witness :
    buildIndex [recA, recB] "A|B" = [recA, recB]
    ∧ recA ∈ buildIndex [recA, recB] (recKey recA) := by
  have h := c7_index_buckets [recA, recB] "A|B"
  exact ⟨by rw [h.1]; decide, h.2 recA (by decide)⟩

/-! ## Claim C1 — consumption invariants of the traversal -/

/-- Claim C1 (amended): for the `part_000` traversal: the final match count
never exceeds the number of destination rows; for every key, the rows filled
at that key never exceed the key's bucket size, and no record is consumed
more often than the bucket holds it; once a bucket has been emptied, it
stays empty and every later destination row with that key is left unfilled.
For `browser-autofiller.js`, which never removes records, only the
destination-row bound holds (the per-key bounds fail there, see
`c1_counterexample`). -/
theorem c1_consumption_invariants (idx : Index) (l1 l2 : List DRow)
    (k : String) (r : SRecord) :
    (processNextRow idx 0 (l1 ++ l2)).2.1 ≤ (l1 ++ l2).length
    ∧ (consumedAt k (processNextRow idx 0 (l1 ++ l2)).2.2).length ≤ (idx k).length
    ∧ (consumedAt k (processNextRow idx 0 (l1 ++ l2)).2.2).count r ≤ (idx k).count r
    ∧ (processNextRowB idx 0 (l1 ++ l2)).1 ≤ (l1 ++ l2).length
    ∧ ((processNextRow idx 0 l1).1 k = [] →
        (processNextRow idx 0 (l1 ++ l2)).1 k = []
        ∧ ∀ p ∈ (processNextRow (processNextRow idx 0 l1).1
              (processNextRow idx 0 l1).2.1 l2).2.2,
            rowKeyOf p.1 = some k → p.2 = none) := by
  refine ⟨?_, ?_, ?_, ?_, ?_⟩
  · simpa using processNextRow_matches_le (l1 ++ l2) idx 0
  · have := processNextRow_length k (l1 ++ l2) idx 0
    omega
  · have := processNextRow_count k r (l1 ++ l2) idx 0
    omega
  · simpa using processNextRowB_matches_le (l1 ++ l2) idx 0
  · intro h
    have hex := processNextRow_exhausted k l2 (processNextRow idx 0 l1).1
      (processNextRow idx 0 l1).2.1 h
    constructor
    · rw [processNextRow_append]
      exact hex.1
    · exact hex.2

/-- Witness for `c1_consumption_invariants`: one record, two rows with its
key — after the first row empties the bucket, the second is left
unfilled. -/
theorem c1_consumption_invariants_witness :
    (processNextRow (buildIndex [recA]) 0 ([rowA] ++ [rowA])).1 "A|B" = []
    ∧ ∀ p ∈ (processNextRow (processNextRow (buildIndex [recA]) 0 [rowA]).1
          (processNextRow (buildIndex [recA]) 0 [rowA]).2.1 [rowA]).2.2,
        rowKeyOf p.1 = some "A|B" → p.2 = none := by
  have h := c1_consumption_invariants (buildIndex [recA]) [rowA] [rowA] "A|B" recA
  exact h.2.2.2.2 (by decide)

/-- Claim C1, counterexample: in `browser-autofiller.js` records are never
removed: with one source record under key `A|B` and two destination rows
presenting that key, both rows are marked matched and both are filled from
the same record — the matched count exceeds the number of source records
sharing the key, and the record is consumed twice. -/
theorem c1_counterexample :
    (processNextRowB (buildIndex [recA]) 0 [rowA, rowA]).1 = 2
    ∧ (buildIndex [recA] "A|B").length = 1
    ∧ ((processNextRowB (buildIndex [recA]) 0 [rowA, rowA]).2.filter
        (fun p => p.2 == some recA)).length = 2 := by
  decide

/-! ## Claim C2 — the tie-break policy -/

/-- Claim C2: for a destination row with a non-blank key whose bucket has more
than one candidate: when exactly one candidate's trimmed period-start equals
the row's own trimmed period-start, that candidate is consumed and written;
when no candidate matches, the first candidate in bucket order is consumed
and written. -/
theorem c2_tiebreak_policy (idx : Index) (row : DRow) (k : String) (c : SRecord)
    (cs : List SRecord) (hk : rowKeyOf row = some k) (hb : idx k = c :: cs)
    (hcs : cs ≠ []) :
    (∀ e ∈ c :: cs, startMatches row e = true →
      (∀ x ∈ c :: cs, startMatches row x = true → x = e) →
      (processRow idx row).2 = some e
      ∧ (processRow idx row).1 k = (c :: cs).erase e
      ∧ writeBack (row, (processRow idx row).2) = fillFields row e)
    ∧ ((∀ x ∈ c :: cs, startMatches row x = false) →
      (processRow idx row).2 = some c
      ∧ (processRow idx row).1 k = cs
      ∧ writeBack (row, (processRow idx row).2) = fillFields row c) := by
  rcases cs with _ | ⟨c2, cs'⟩
  · exact absurd rfl hcs
  constructor
  · intro e he hme huniq
    have hf : (c :: c2 :: cs').find? (fun r => startMatches row r) = some e := by
      cases hf0 : (c :: c2 :: cs').find? (fun r => startMatches row r) with
      | none =>
        exact absurd hme (by simpa using List.find?_eq_none.mp hf0 e he)
      | some x =>
        rw [huniq x (List.mem_of_find?_eq_some hf0) (List.find?_some hf0)]
    refine ⟨?_, ?_, ?_⟩ <;>
      simp [processRow, hk, hb, hf, writeBack, updateIndex]
  · intro hnone
    have hf : (c :: c2 :: cs').find? (fun r => startMatches row r) = none :=
      List.find?_eq_none.mpr (by intro x hx; simp [hnone x hx])
    refine ⟨?_, ?_, ?_⟩ <;>
      simp [processRow, hk, hb, hf, writeBack, updateIndex, List.erase_cons_head]

/-- Witness for `c2_tiebreak_policy`: bucket `[recA, recB]`, a row whose
period-start equals `recB`'s — `recB`, not the first candidate, is
consumed. -/
theorem c2_tiebreak_policy_witness :
    (processRow (buildIndex [recA, recB]) rowB).2 = some recB
    ∧ (processRow (buildIndex [recA, recB]) rowB).1 "A|B" = [recA, recB].erase recB
    ∧ writeBack (rowB, (processRow (buildIndex [recA, recB]) rowB).2)
        = fillFields rowB recB := by
  have h := c2_tiebreak_policy (buildIndex [recA, recB]) rowB "A|B" recA [recB]
    (by decide) (by decide) (by decide)
  exact h.1 recB (by decide) (by decide) (by decide)

/-! ## Claim C8 — blank destination rows are skipped, never fatal -/

/-- Claim C8: a destination row whose identifier or period-end input is
absent or blank presents no key: both traversal variants leave the index
untouched, fill nothing, count no match, continue with the remaining rows,
and the row's fields are left unwritten; no row ever terminates the
traversal (every row yields a trace entry). -/
theorem c8_blank_row_skipped (idx : Index) (m : Nat) (row : DRow)
    (rest rows : List DRow)
    (h : (blankField row.chick || blankField row.dateTo) = true) :
    rowKeyOf row = none
    ∧ processRow idx row = (idx, none)
    ∧ processRowB idx row = none
    ∧ writeBack (row, none) = row
    ∧ processNextRow idx m (row :: rest)
      = ((processNextRow idx m rest).1, (processNextRow idx m rest).2.1,
          (row, none) :: (processNextRow idx m rest).2.2)
    ∧ processNextRowB idx m (row :: rest)
      = ((processNextRowB idx m rest).1, (row, none) :: (processNextRowB idx m rest).2)
    ∧ (processNextRow idx m rows).2.2.length = rows.length := by
  have hkey : rowKeyOf row = none := by simp [rowKeyOf, h]
  refine ⟨hkey, ?_, ?_, rfl, ?_, ?_, processNextRow_trace_length rows idx m⟩
  · simp [processRow, hkey]
  · simp [processRowB, hkey]
  · simp [processNextRow, processRow, hkey]
  · simp [processNextRowB, processRowB, hkey]

/-- Witness for `c8_blank_row_skipped` at a row whose CHICK input holds only
whitespace. -/
theorem c8_blank_row_skipped_witness :
    rowKeyOf rowBlank = none
    ∧ processRow (buildIndex [recA]) rowBlank = (buildIndex [recA], none)
    ∧ processRowB (buildIndex [recA]) rowBlank = none
    ∧ writeBack (rowBlank, none) = rowBlank := by
  have h := c8_blank_row_skipped (buildIndex [recA]) 0 rowBlank [] [] (by decide)
  exact ⟨h.1, h.2.1, h.2.2.1, h.2.2.2.1⟩

/-! ## Claim C10 — the key fields are never written -/

/-- Claim C10: the fill operations write only the period-start, weekly-total
and hour-rate inputs: `part_000`'s `fillFields` leaves the identifier and
period-end fields (hence the row's composite key) unchanged, `part_001`'s
`fillRowData` leaves the identifier cell unchanged, and across the whole
`part_000` traversal every row's key after write-back equals its key
before. -/
theorem c10_key_fields_never_written (idx : Index) (m : Nat) (rows : List DRow) :
    (∀ (row : DRow) (data : SRecord),
      (fillFields row data).chick = row.chick
      ∧ (fillFields row data).dateTo = row.dateTo
      ∧ rowKeyOf (fillFields row data) = rowKeyOf row)
    ∧ (∀ (row : P1Row) (childData : SRecord1) (v : String),
      (fillRowData row childData v).chickCell = row.chickCell)
    ∧ ∀ p ∈ (processNextRow idx m rows).2.2, rowKeyOf (writeBack p) = rowKeyOf p.1 := by
  refine ⟨fun row data => ⟨rfl, rfl, rfl⟩, fun row childData v => rfl, ?_⟩
  intro p _
  obtain ⟨prow, out⟩ := p
  cases out <;> rfl

/-- Witness for `c10_key_fields_never_written` at the one-row, one-record
traversal. -/
theorem c10_key_fields_never_written_witness :
    rowKeyOf (writeBack (rowA, some recA)) = rowKeyOf rowA := by
  have h := c10_key_fields_never_written (buildIndex [recA]) 0 [rowA]
  exact h.2.2 (rowA, some recA) (by decide)

/-! ## Claim C6 — hour-rate stripping -/

theorem count_filter_of_pos {α : Type} [DecidableEq α] (p : α → Bool) (a : α)
    (hp : p a = true) :
    ∀ l : List α, (l.filter p).count a = l.count a := by
  intro l
  induction l with
  | nil => simp
  | cons b rest ih =>
    by_cases hb : p b
    · simp [List.filter_cons, hb, List.count_cons, ih]
    · have : (b == a) = false := by
        rcases eq_or_ne b a with rfl | hne
        · exact absurd hp hb
        · simpa using hne
      simp [List.filter_cons, hb, List.count_cons, ih, this]

/-- Claim C6 (amended): the hour-rate written by `fillFields` and
`fillRowData` is the record's hourly-rate string with every character other
than a digit or a full stop removed (currency symbols, separators and
whitespace all go) — but every full stop of the input is retained, so
the written value holds exactly as many `'.'` characters as the input, not
at most one. -/
theorem c6_hour_rate_stripping (row : DRow) (data : SRecord) (prow : P1Row)
    (childData : SRecord1) (v : String) :
    (fillFields row data).hourRate
      = row.hourRate.map (fun _ => stripHourRate data.hourRate)
    ∧ (fillRowData prow childData v).hourRate
      = prow.hourRate.map (fun _ => stripHourRate childData.hourRate)
    ∧ (∀ ch ∈ (stripHourRate data.hourRate).data, ch.isDigit = true ∨ ch = '.')
    ∧ (stripHourRate data.hourRate).data.count '.' = data.hourRate.data.count '.' := by
  refine ⟨rfl, rfl, ?_, ?_⟩
  · intro ch hch
    have hmem := List.mem_filter.mp hch
    rcases Bool.or_eq_true_iff.mp hmem.2 with hd | hdot
    · exact Or.inl hd
    · exact Or.inr (by simpa using hdot)
  · exact count_filter_of_pos _ '.' (by decide) data.hourRate.data

/-- Witness for `c6_hour_rate_stripping` at a currency-formatted rate. -/
theorem c6_hour_rate_stripping_witness :
    (fillFields rowA recA).hourRate
      = rowA.hourRate.map (fun _ => stripHourRate recA.hourRate)
    ∧ ('5'.isDigit = true ∨ '5' = '.')
    ∧ (stripHourRate recA.hourRate).data.count '.' = recA.hourRate.data.count '.' := by
  have h := c6_hour_rate_stripping rowA recA prow1 pr1 ""
  exact ⟨h.1, h.2.2.1 '5' (by decide), h.2.2.2⟩

/-- Claim C6, counterexample: the regex class `[^\d.]` keeps every `'.'`:
hourly rate `"1.2.3"` is written unchanged, with two full stops — the
claim's "at most one '.' character" fails. -/
theorem c6_counterexample :
    (fillFields rowA ⟨"A", "B", "01/09/2025", "10", "1.2.3", ""⟩).hourRate
      = some "1.2.3"
    ∧ ("1.2.3".data.count '.') = 2 := by
  decide

/-! ## Claim C9 — the delimited-text reader -/

/-- Claim C9 (amended): both parsers read the first line as comma-separated,
trimmed field names and assign comma-separated values positionally with
missing trailing values defaulting to `""`.  `part_001`'s parser drops blank
lines (inserting a blank line changes nothing); `part_000`'s parser trims
the whole input once and then yields a record for *every* remaining line
after the header, so an interior blank line yields a record too (see
`c9_counterexample`). -/
theorem c9_line_records (h ln : String) (rest pre post : List String) (i : Nat)
    (hi : i < (headersOf h).length) :
    (parseLines0 (h :: rest)).length = rest.length
    ∧ parseLines1 (h :: rest)
        = (rest.filter (fun l => jsTrim l != "")).map (rowOfLine (headersOf h))
    ∧ (jsTrim ln = "" →
        parseLines1 (h :: (pre ++ ln :: post)) = parseLines1 (h :: (pre ++ post)))
    ∧ (rowOfLine (headersOf h) ln).getD i ("", "")
        = ((headersOf h).getD i "",
           ((splitChar ',' ln).map jsTrim).getD i "") := by
  refine ⟨by simp [parseLines0], rfl, ?_, ?_⟩
  · intro hb
    simp [parseLines1, List.filter_append, List.filter_cons, hb]
  · have hlen : i < ((headersOf h).enum.map
        (fun p => (p.2, ((splitChar ',' ln).map jsTrim).getD p.1 ""))).length := by
      simpa using hi
    rw [show rowOfLine (headersOf h) ln = (headersOf h).enum.map
        (fun p => (p.2, ((splitChar ',' ln).map jsTrim).getD p.1 "")) from rfl]
    rw [List.getD_eq_getElem _ _ hlen, List.getElem_map, List.getElem_enum,
      List.getD_eq_getElem _ _ hi]

/-- Witness for `c9_line_records` on a two-header line. -/
theorem c9_line_records_witness :
    (parseLines0 ["a,b", "1"]).length = 1
    ∧ parseLines1 ["a,b", "1", " "]
        = (["1", " "].filter (fun l => jsTrim l != "")).map (rowOfLine (headersOf "a,b"))
    ∧ parseLines1 ("a,b" :: ([] ++ " " :: ["1"])) = parseLines1 ("a,b" :: ([] ++ ["1"]))
    ∧ (rowOfLine (headersOf "a,b") "1").getD 1 ("", "")
        = ((headersOf "a,b").getD 1 "", ((splitChar ',' "1").map jsTrim).getD 1 "") := by
  have h := c9_line_records "a,b" " " ["1"] [] ["1"] 1 (by decide)
  exact ⟨h.1, (c9_line_records "a,b" " " ["1", " "] [] ["1"] 1 (by decide)).2.1,
    h.2.2.1 (by decide), h.2.2.2⟩

/-- Claim C9, counterexample: the `part_000` parser maps an interior blank line
to a record of empty fields: `"h\n\nx"` has one non-blank line after the
header but parses to two records. -/
theorem c9_counterexample :
    parseCSV0 "h\n\nx" = [[("h", "")], [("h", "x")]]
    ∧ ((splitChar '\n' (jsTrim "h\n\nx")).drop 1).filter (fun l => jsTrim l != "")
        = ["x"]
    ∧ (parseCSV0 "h\n\nx").length = 2 := by
  decide

/-! ## Claim C3 — weekly-total disambiguation -/

/-- Claim C3 evaluated at the failing input: records `K1 ↦ 10`,
`K2 ↦ 20/25`, `K3 ↦ 30` against rows `K1, K2, K3`; the dialog at row 1
offers exactly `20` and `25`.  In the first variant, skipping leaves the
row's weekly-total unchanged and the final count is `2`, exactly one less
than the `3` of selecting.  In the second variant the skip handler restarts
with an empty lookup object and a zero count, so row `K3` is left unmatched
and the final reported count is `0` — not one less than selecting. -/
theorem c3_skip_behaviour :
    stepRow1 (buildByChick [pr1, pr2, pr3]) Choice.skip prow2
      = Outcome1.promptSkipped ["20", "25"]
    ∧ stepRow1 (buildByChick [pr1, pr2, pr3]) (Choice.select 1) prow2
      = Outcome1.promptSelected ["20", "25"] 1 pr2
    ∧ writeBack1 (prow2, Outcome1.promptSkipped ["20", "25"]) = prow2
    ∧ (writeBack1 (prow2, Outcome1.promptSelected ["20", "25"] 1 pr2)).weeklyTotal
      = some "25"
    ∧ (runRows1 (buildByChick [pr1, pr2, pr3]) chSel 0 0 [prow1, prow2, prow3]).1 = 3
    ∧ (runRows1 (buildByChick [pr1, pr2, pr3]) chSkip 0 0 [prow1, prow2, prow3]).1 = 2
    ∧ (runRows2 chSkip (buildByChick [pr1, pr2, pr3]) 0 0 [prow1, prow2, prow3]).1 = 0
    ∧ ((runRows2 chSkip (buildByChick [pr1, pr2, pr3]) 0 0 [prow1, prow2, prow3]).2.map
        (fun p => p.2))
      = [Outcome1.filled pr1, Outcome1.promptSkipped ["20", "25"], Outcome1.noMatch] := by
  decide

/-! ## Claim C4 — the 90-day staleness boundary -/

/-- The script's float comparison `(now - end) / 86400000 > 90` holds
exactly when `now - end` exceeds ninety days of milliseconds. -/
theorem isOldPeriod_iff (nowMs e : Int) :
    isOldPeriod nowMs (some e) = true
      ↔ 90 * (1000 * 60 * 60 * 24) < nowMs - e := by
  simp only [isOldPeriod, decide_eq_true_eq]
  rw [lt_div_iff₀ (by norm_num)]
  constructor
  · intro hq
    have : ((90 * (1000 * 60 * 60 * 24) : Int) : ℚ) < ((nowMs - e : Int) : ℚ) := by
      push_cast
      linarith
    exact_mod_cast this
  · intro hz
    have : ((90 * (1000 * 60 * 60 * 24) : Int) : ℚ) < ((nowMs - e : Int) : ℚ) := by
      exact_mod_cast hz
    push_cast at this
    linarith

/-- Claim C4: for a non-base record with a parseable period-end, the row is
classified stale exactly when the period-end lies more than 90 days of
milliseconds before now; at exactly 90 days, or fewer, it is classified
fresh, as is a record whose period-end does not parse. -/
theorem c4_staleness_boundary (nowMs e : Int) (note : String)
    (hnb : hasBase note = false) :
    (classifyRow note nowMs (some e) = RowStyle.stale
      ↔ 90 * (1000 * 60 * 60 * 24) < nowMs - e)
    ∧ (nowMs - e ≤ 90 * (1000 * 60 * 60 * 24) →
        classifyRow note nowMs (some e) = RowStyle.fresh)
    ∧ classifyRow note (e + 90 * (1000 * 60 * 60 * 24)) (some e) = RowStyle.fresh
    ∧ classifyRow note nowMs none = RowStyle.fresh := by
  have hcl : ∀ (t : Int), classifyRow note t (some e)
      = if isOldPeriod t (some e) then RowStyle.stale else RowStyle.fresh := by
    intro t
    simp [classifyRow, hnb]
  refine ⟨?_, ?_, ?_, by simp [classifyRow, hnb, isOldPeriod]⟩
  · rw [hcl]
    by_cases hio : isOldPeriod nowMs (some e)
    · simp only [hio, if_true]
      simpa using (isOldPeriod_iff nowMs e).mp hio
    · rw [if_neg hio]
      constructor
      · intro hfr
        cases hfr
      · intro hlt
        exact absurd ((isOldPeriod_iff nowMs e).mpr hlt) (by simpa using hio)
  · intro hle
    rw [hcl]
    have hio : isOldPeriod nowMs (some e) = false := by
      by_contra hcon
      have := (isOldPeriod_iff nowMs e).mp (by simpa using hcon)
      omega
    rw [hio]
    simp
  · rw [hcl]
    have hio : isOldPeriod (e + 90 * (1000 * 60 * 60 * 24)) (some e) = false := by
      by_contra hcon
      have := (isOldPeriod_iff (e + 90 * (1000 * 60 * 60 * 24)) e).mp (by simpa using hcon)
      omega
    rw [hio]
    simp

/-- Witness for `c4_staleness_boundary`: a period-end exactly 90 days old is
not stale. -/
theorem c4_staleness_boundary_witness :
    classifyRow "" (0 + 90 * (1000 * 60 * 60 * 24)) (some 0) = RowStyle.fresh
    ∧ classifyRow "" 0 none = RowStyle.fresh := by
  have h := c4_staleness_boundary 0 0 "" (by decide)
  exact ⟨h.2.2.1, h.2.2.2⟩

/-! ## Claim C5 — the holiday lookup -/

/-- With enough fuel to reach a Monday, the backward walk stops at a Monday,
never after the start, and within the fuel. -/
theorem mondayWalk_spec :
    ∀ (fuel : Nat) (dn : Int),
      (∃ j : Nat, j < fuel ∧ dayOfWeekJS (dn - j) = 1) →
        dayOfWeekJS (mondayWalk fuel dn) = 1
        ∧ mondayWalk fuel dn ≤ dn
        ∧ dn - mondayWalk fuel dn < fuel := by
  intro fuel
  induction fuel with
  | zero =>
    intro dn h
    obtain ⟨j, hj, _⟩ := h
    omega
  | succ n ih =>
    intro dn h
    by_cases hd : dayOfWeekJS dn = 1
    · rw [show mondayWalk (n + 1) dn = dn from by simp [mondayWalk, hd]]
      exact ⟨hd, le_refl dn, by omega⟩
    · rw [show mondayWalk (n + 1) dn = mondayWalk n (dn - 1) from by simp [mondayWalk, hd]]
      have hex : ∃ j : Nat, j < n ∧ dayOfWeekJS ((dn - 1) - j) = 1 := by
        obtain ⟨j, hj, hm⟩ := h
        have hj0 : j ≠ 0 := by
          rintro rfl
          exact hd (by simpa using hm)
        refine ⟨j - 1, by omega, ?_⟩
        have harg : (dn - 1) - ((j - 1 : Nat) : Int) = dn - (j : Int) := by
          omega
        rw [harg]
        exact hm
      obtain ⟨h1, h2, h3⟩ := ih (dn - 1) hex
      exact ⟨h1, by omega, by omega⟩

/-- The function `getFirstMondayBeforeOrOn` returns the Monday on or before its argument:
a Monday, not after the argument, less than a week back. -/
theorem getFirstMondayBeforeOrOn_spec (dn : Int) :
    dayOfWeekJS (getFirstMondayBeforeOrOn dn) = 1
    ∧ getFirstMondayBeforeOrOn dn ≤ dn
    ∧ dn - getFirstMondayBeforeOrOn dn < 7 := by
  have hex : ∃ j : Nat, j < 7 ∧ dayOfWeekJS (dn - j) = 1 := by
    refine ⟨((dn + 3) % 7).toNat, by omega, ?_⟩
    simp only [dayOfWeekJS]
    omega
  simpa [getFirstMondayBeforeOrOn] using mondayWalk_spec 7 dn hex

/-- A name produced by the inner table scan names one of the scanned
entries. -/
theorem scanEntries_mem (dn : Int) :
    ∀ (es : List (String × String × String)) (r : String),
      scanEntries dn es = some r → ∃ e ∈ es, r = e.1 := by
  intro es
  induction es with
  | nil =>
    intro r h
    simp [scanEntries] at h
  | cons e rest ih =>
    intro r h
    by_cases hc : entryContains dn e
    · refine ⟨e, by simp, ?_⟩
      simp [scanEntries, hc] at h
      exact h.symm
    · simp only [scanEntries, hc, Bool.false_eq_true, if_false] at h
      obtain ⟨x, hx, hr⟩ := ih r h
      exact ⟨x, by simp [hx], hr⟩

/-- A name produced by the table scan names an entry of the table. -/
theorem scanYears_mem (dn : Int) :
    ∀ (tbl : List (String × List (String × String × String))) (r : String),
      scanYears dn tbl = some r → ∃ y ∈ tbl, ∃ e ∈ y.2, r = e.1 := by
  intro tbl
  induction tbl with
  | nil =>
    intro r h
    simp [scanYears] at h
  | cons y rest ih =>
    intro r h
    cases hin : scanEntries dn y.2 with
    | some n =>
      simp only [scanYears, hin] at h
      obtain ⟨e, he, hr⟩ := scanEntries_mem dn y.2 n hin
      have hn : n = r := by
        injection h
      exact ⟨y, by simp, e, he, by rw [← hn]; exact hr⟩
    | none =>
      simp only [scanYears, hin] at h
      obtain ⟨y', hy', e, he, hr⟩ := ih r h
      exact ⟨y', by simp [hy'], e, he, hr⟩

/-- The static table never produces the derived summer name. -/
theorem scanYears_schoolHolidays_names (dn : Int) (r : String)
    (h : scanYears dn schoolHolidays = some r) : r ≠ "Summer Holidays" := by
  obtain ⟨y, hy, e, he, rfl⟩ := scanYears_mem dn schoolHolidays r h
  simp only [schoolHolidays, List.mem_cons, List.not_mem_nil, or_false] at hy
  rcases hy with rfl | rfl <;>
    · simp only [List.mem_cons, List.not_mem_nil, or_false] at he
      rcases he with rfl | rfl | rfl | rfl <;> decide

/-- Finding over a concatenation: the left list wins. -/
theorem find?_append_or {α : Type} (p : α → Bool) :
    ∀ (l1 l2 : List α),
      (l1 ++ l2).find? p
        = match l1.find? p with
          | some x => some x
          | none => l2.find? p := by
  intro l1 l2
  induction l1 with
  | nil => simp
  | cons a rest ih =>
    by_cases ha : p a
    · simp [List.find?_cons_of_pos, ha]
    · simp [List.find?_cons_of_neg, ha, ih]

/-- The inner scan is first-containing-match over the entry list. -/
theorem scanEntries_eq_find (dn : Int) :
    ∀ es : List (String × String × String),
      scanEntries dn es
        = (es.find? (fun e => entryContains dn e)).map (fun e => e.1) := by
  intro es
  induction es with
  | nil => simp [scanEntries]
  | cons e rest ih =>
    by_cases hc : entryContains dn e
    · simp [scanEntries, hc, List.find?_cons_of_pos]
    · simp [scanEntries, hc, List.find?_cons_of_neg, ih]

/-- The nested year/entry scan is first-containing-match over the table
flattened in insertion order. -/
theorem scanYears_eq_find (dn : Int) :
    ∀ tbl : List (String × List (String × String × String)),
      scanYears dn tbl
        = (((tbl.map (fun y => y.2)).flatten).find?
            (fun e => entryContains dn e)).map (fun e => e.1) := by
  intro tbl
  induction tbl with
  | nil => simp [scanYears]
  | cons y rest ih =>
    cases hfind : y.2.find? (fun e => entryContains dn e) with
    | some e =>
      simp [scanYears, scanEntries_eq_find dn y.2, hfind, find?_append_or]
    | none =>
      simp [scanYears, scanEntries_eq_find dn y.2, hfind, find?_append_or, ih]

/-- Claim C5: the backward Monday walk yields the Monday on or before its
argument; a date is named "Summer Holidays" exactly when it lies in
`[Monday on or before 1 July, Monday on or before 1 September)` of its own
year; outside that range the result is the first named range of the static
table (in insertion order) containing the date inclusively, or no match.
Concretely, 01/07/2025 maps to "Summer Holidays", the summer start of 2025
is Monday 30/06/2025, and the day before it, 29/06/2025, maps to no
holiday. -/
theorem c5_holiday_lookup (dt : CalDate) :
    (∀ dn : Int, dayOfWeekJS (getFirstMondayBeforeOrOn dn) = 1
      ∧ getFirstMondayBeforeOrOn dn ≤ dn
      ∧ dn - getFirstMondayBeforeOrOn dn < 7)
    ∧ (getHolidayName dt = some "Summer Holidays"
      ↔ getFirstMondayBeforeOrOn (toDayNumber ⟨dt.year, 7, 1⟩) ≤ toDayNumber dt
        ∧ toDayNumber dt < getFirstMondayBeforeOrOn (toDayNumber ⟨dt.year, 9, 1⟩))
    ∧ (¬ (getFirstMondayBeforeOrOn (toDayNumber ⟨dt.year, 7, 1⟩) ≤ toDayNumber dt
          ∧ toDayNumber dt < getFirstMondayBeforeOrOn (toDayNumber ⟨dt.year, 9, 1⟩)) →
        getHolidayName dt
          = (((schoolHolidays.map (fun y => y.2)).flatten).find?
              (fun e => entryContains (toDayNumber dt) e)).map (fun e => e.1))
    ∧ getHolidayName ⟨2025, 7, 1⟩ = some "Summer Holidays"
    ∧ getHolidayName ⟨2025, 6, 29⟩ = none
    ∧ getFirstMondayBeforeOrOn (toDayNumber ⟨2025, 7, 1⟩) = toDayNumber ⟨2025, 6, 30⟩ := by
  refine ⟨getFirstMondayBeforeOrOn_spec, ?_, ?_, by decide, by decide, by decide⟩
  · by_cases hc : getFirstMondayBeforeOrOn (toDayNumber ⟨dt.year, 7, 1⟩) ≤ toDayNumber dt
        ∧ toDayNumber dt < getFirstMondayBeforeOrOn (toDayNumber ⟨dt.year, 9, 1⟩)
    · simp [getHolidayName, hc]
    · simp only [getHolidayName, if_neg hc]
      constructor
      · intro hsum
        exact absurd rfl (scanYears_schoolHolidays_names (toDayNumber dt) _ hsum)
      · intro hcond
        exact absurd hcond hc
  · intro hnc
    simp only [getHolidayName, if_neg hnc]
    exact scanYears_eq_find (toDayNumber dt) schoolHolidays

/-- Witness for `c5_holiday_lookup`: 28/10/2024 is outside summer and falls
through to the static table scan. -/
theorem c5_holiday_lookup_witness :
    getHolidayName ⟨2024, 10, 28⟩
      = (((schoolHolidays.map (fun y => y.2)).flatten).find?
          (fun e => entryContains (toDayNumber ⟨2024, 10, 28⟩) e)).map (fun e => e.1) := by
  exact (c5_holiday_lookup ⟨2024, 10, 28⟩).2.2.1 (by decide)

end FundingExtractor
